import Mathlib

/-!
Verification development for the bam_realigner repository.

The embedding below follows `src/bam_realigner_app.cpp` and
`src/realigner_step.cpp`.  Positions are modelled as `Int` (the C++ code
works with `int` positions inside `buildFragmentStore` and
`loadAlignments`); the one place where the C++ operates on unsigned
32-bit values (`RealignerStepImpl::extendRegion()`, which subtracts the
window radius from the unsigned `region.beginPos`) is modelled with
explicit `% 2^32` arithmetic.  Gapped sequences (the SeqAn
`Gaps`/`AnchorGaps` abstraction, an external collaborator of the core)
are modelled as lists of `Option Char`, where `none` is a gap symbol and
`some c` a base; `insertGaps`, `toSourcePosition` and `toViewPosition`
below implement the documented interface of that abstraction.
-/

/-- CIGAR operation kinds, the closed set handled by the program
(`M`/`=`/`X` aligned, `I` insertion, `D` deletion, `N` reference skip,
`S` soft clip, `H` hard clip, `P` padding). -/
inductive CigarOp where
  | M | I | D | N | S | H | P | X | EQL
deriving DecidableEq, Repr

/-- One CIGAR element: an operation and its run length. -/
structure CigarElem where
  op : CigarOp
  cnt : Nat
deriving DecidableEq, Repr

/-- A BAM alignment record, with the fields the realigner reads:
name, reference id (`-1` = INVALID_REFID), begin position, CIGAR,
base sequence, and the unmapped flag. -/
structure BamAlignmentRecord where
  qName : String
  rID : Int
  beginPos : Int
  cigar : List CigarElem
  seq : List Char
  unmapped : Bool
deriving DecidableEq, Repr

/-- Whether a CIGAR operation consumes reference bases. -/
def refConsuming : CigarOp → Bool
  | .M | .D | .N | .X | .EQL => true
  | _ => false

/-- SeqAn `getAlignmentLengthInRef`: total reference length consumed by
the CIGAR (sum of the lengths of `M`, `D`, `N`, `=`, `X` operations). -/
def getAlignmentLengthInRef (cigar : List CigarElem) : Nat :=
  (cigar.map (fun e => if refConsuming e.op then e.cnt else 0)).sum

/-- A gapped sequence in view order: `none` is a gap symbol, `some c` a
base of the underlying source sequence. -/
abbrev GapSeq := List (Option Char)

/-- SeqAn `insertGaps(gaps, viewPos, count)`: insert `count` gap symbols
at view position `viewPos`, shifting everything behind it. -/
def insertGaps (g : GapSeq) (viewPos count : Nat) : GapSeq :=
  g.take viewPos ++ List.replicate count none ++ g.drop viewPos

/-- Read the ungapped source sequence back out of a gapped sequence. -/
def ungap (g : GapSeq) : List Char :=
  g.filterMap id

/-- SeqAn `toSourcePosition`: number of source characters strictly in
front of view position `v`. -/
def toSourcePosition (g : GapSeq) (v : Nat) : Nat :=
  ((g.take v).filterMap id).length

/-- SeqAn `toViewPosition`: the view position of source position `s`
(positions past the end keep their distance to it). -/
def toViewPosition : GapSeq → Nat → Nat
  | [], s => s
  | none :: g, s => toViewPosition g s + 1
  | some _ :: _, 0 => 0
  | some _ :: g, s + 1 => toViewPosition g s + 1

/-- `toSourcePosition` on an `Int` position, as used with the store's
`Int` coordinates (negative positions clamp to the origin). -/
def toSourcePositionI (g : GapSeq) (v : Int) : Int :=
  (toSourcePosition g v.toNat : Int)

/-- `toViewPosition` on an `Int` position. -/
def toViewPositionI (g : GapSeq) (s : Int) : Int :=
  (toViewPosition g s.toNat : Int)

/-- SeqAn `cigarToGapAnchorRead` (external collaborator): builds the
read's gapped sequence from its CIGAR — `D`/`N`/`P` operations become
gap symbols in the read, `M`/`I`/`S`/`=`/`X` operations consume read
bases, `H` consumes nothing — and counts the gap symbols placed before
the first read base (the function's return value, `beginGaps`).  Any
bases left after the CIGAR is exhausted stay in the gapped sequence. -/
def cigarToGapAnchorRead : List CigarElem → List Char → GapSeq × Nat
  | [], s => (s.map some, 0)
  | e :: es, s =>
    match e.op with
    | .D | .N | .P =>
      let r := cigarToGapAnchorRead es s
      (List.replicate e.cnt none ++ r.1, e.cnt + r.2)
    | .H =>
      cigarToGapAnchorRead es s
    | _ =>
      let r := cigarToGapAnchorRead es (s.drop e.cnt)
      ((s.take e.cnt).map some ++ r.1, 0)

/-- The reference-gap table (C++ `std::map<int, int> refGaps`), kept as
an association list sorted by strictly ascending key. -/
abbrev RefGapsT := List (Int × Nat)

/-- First-match lookup in the reference-gap table. -/
def lookupO : RefGapsT → Int → Option Nat
  | [], _ => none
  | (k, v) :: rest, p => if p = k then some v else lookupO rest p

/-- Lookup with the `std::map` default value `0`. -/
def lookupD (m : RefGapsT) (p : Int) : Nat :=
  (lookupO m p).getD 0

/-- Sorted insert-or-overwrite for the reference-gap table
(`refGaps[p] = v`). -/
def minsert : RefGapsT → Int → Nat → RefGapsT
  | [], k, v => [(k, v)]
  | (k2, v2) :: rest, k, v =>
    if k < k2 then (k, v) :: (k2, v2) :: rest
    else if k = k2 then (k, v) :: rest
    else (k2, v2) :: minsert rest k v

/-- Per-read insertion table
(C++ `std::vector<std::map<int, int>> readInsertions`), modelled as a
list of `(readId, refPos, count)` writes in which a later write to the
same `(readId, refPos)` shadows an earlier one. -/
abbrev ReadInsT := List (Nat × Int × Nat)

/-- Lookup of a read's recorded insertion length at a position
(`readInsertions[readId].count(p) ? readInsertions[readId][p] : 0`
returns `none` when no entry exists). -/
def riLookup : ReadInsT → Nat → Int → Option Nat
  | [], _, _ => none
  | (id2, p2, c) :: rest, id1, p =>
    if id1 = id2 ∧ p = p2 then some c else riLookup rest id1 p

/-- Read-insertion lookup with default `0`, the `delta` of the
projection step. -/
def riLookupD (ri : ReadInsT) (id1 : Nat) (p : Int) : Nat :=
  (riLookup ri id1 p).getD 0

/-- The CIGAR walk of `buildFragmentStore` (realigner_step.cpp:238-287)
restricted to its effect on the two gap tables: starting at reference
position `refPos`, an `I` operation records
`refGaps[refPos] = max(refGaps[refPos], cnt)` and
`readInsertions[readId][refPos] = cnt`; `M`/`X`/`=` advance `refPos`;
a `D` advances only the read position in the source (its `refPos` is
left unchanged there), and all remaining operations fall into the
do-nothing default case. -/
def walkCigarGaps : List CigarElem → Int → Nat → RefGapsT → ReadInsT → RefGapsT × ReadInsT
  | [], _, _, rg, ri => (rg, ri)
  | e :: es, refPos, readId, rg, ri =>
    match e.op with
    | .I =>
      walkCigarGaps es refPos readId
        (minsert rg refPos (max (lookupD rg refPos) e.cnt))
        ((readId, refPos, e.cnt) :: ri)
    | .M | .X | .EQL => walkCigarGaps es (refPos + e.cnt) readId rg ri
    | _ => walkCigarGaps es refPos readId rg ri

/-- The insertion events `(refPos, cnt)` produced by the same CIGAR
walk, in walk order. -/
def cigarEvents : List CigarElem → Int → List (Int × Nat)
  | [], _ => []
  | e :: es, refPos =>
    match e.op with
    | .I => (refPos, e.cnt) :: cigarEvents es refPos
    | .M | .X | .EQL => cigarEvents es (refPos + e.cnt)
    | _ => cigarEvents es refPos

/-- The update one insertion event makes to the reference-gap table. -/
def refGapStep (rg : RefGapsT) (ev : Int × Nat) : RefGapsT :=
  minsert rg ev.1 (max (lookupD rg ev.1) ev.2)

/-- One element of the aligned-read store
(SeqAn `AlignedReadStoreElement`): alignment id, read id, begin and end
in the window's coordinates, and the read's gapped sequence. -/
structure TAlignedRead where
  id : Nat
  readId : Nat
  beginPos : Int
  endPos : Int
  gaps : GapSeq
deriving DecidableEq, Repr

/-- State accumulated by the ingestion loop of `buildFragmentStore`
(realigner_step.cpp:194-291). -/
structure IngestOut where
  readSeqStore : List (List Char)
  readNameStore : List String
  alignedReads : List TAlignedRead
  refGaps : RefGapsT
  readIns : ReadInsT
deriving DecidableEq, Repr

/-- The empty fragment-store state. -/
def emptyIngest : IngestOut :=
  { readSeqStore := [], readNameStore := [], alignedReads := [],
    refGaps := [], readIns := [] }

/-- Ingestion of one record (one iteration of the loop at
realigner_step.cpp:194-291): append its sequence and name
(`appendRead`); if it is mapped, append an aligned read with window
coordinates `record.beginPos - region.beginPos` and that plus
`getAlignmentLengthInRef`, build its gapped sequence with
`cigarToGapAnchorRead`, add the returned leading-gap count to the
aligned read's begin position, and walk the CIGAR from that begin
position to fill `refGaps` and `readInsertions`. -/
def ingestRecord (regionBegin : Int) (acc : IngestOut) (rec : BamAlignmentRecord) : IngestOut :=
  let readId := acc.readSeqStore.length
  let acc1 := { acc with readSeqStore := acc.readSeqStore ++ [rec.seq],
                         readNameStore := acc.readNameStore ++ [rec.qName] }
  if rec.unmapped then acc1 else
  let beginPos0 : Int := rec.beginPos - regionBegin
  let endPos : Int := beginPos0 + (getAlignmentLengthInRef rec.cigar : Int)
  let alignId := acc1.alignedReads.length
  let gl := cigarToGapAnchorRead rec.cigar rec.seq
  let beginPos : Int := beginPos0 + (gl.2 : Int)
  let walked := walkCigarGaps rec.cigar beginPos readId acc1.refGaps acc1.readIns
  { acc1 with
      alignedReads := acc1.alignedReads ++
        [{ id := alignId, readId := readId, beginPos := beginPos,
           endPos := endPos, gaps := gl.1 }],
      refGaps := walked.1, readIns := walked.2 }

/-- Ingest all loaded records in order. -/
def ingestAll (regionBegin : Int) (records : List BamAlignmentRecord) : IngestOut :=
  records.foldl (ingestRecord regionBegin) emptyIngest

/-- Stable insertion step for sorting the aligned-read store by an
integer key. -/
def orderedInsertBy (key : TAlignedRead → Int) (x : TAlignedRead) : List TAlignedRead → List TAlignedRead
  | [] => [x]
  | y :: ys => if key x ≤ key y then x :: y :: ys else y :: orderedInsertBy key x ys

/-- Stable insertion sort of the aligned-read store by an integer key. -/
def insertionSortBy (key : TAlignedRead → Int) : List TAlignedRead → List TAlignedRead
  | [] => []
  | x :: xs => orderedInsertBy key x (insertionSortBy key xs)

/-- `sortAlignedReads(store, SortEndPos)` followed by
`sortAlignedReads(store, SortBeginPos)` (realigner_step.cpp:298-299),
modelled with a stable sort. -/
def sortAlignedReads (l : List TAlignedRead) : List TAlignedRead :=
  insertionSortBy (fun el => el.beginPos) (insertionSortBy (fun el => el.endPos) l)

/-- The interval list the overlap index is built from
(realigner_step.cpp:310-316): for every aligned read, the source
positions of its begin and end under the (still gapless) contig gaps,
tagged with the alignment id as cargo. -/
def buildIntervals (contigGaps : GapSeq) (l : List TAlignedRead) : List (Int × Int × Nat) :=
  l.map (fun el => (toSourcePositionI contigGaps el.beginPos,
                    toSourcePositionI contigGaps el.endPos, el.id))

/-- `findIntervals(tree, p, p + 1, results)`: the cargos of all stored
half-open intervals containing `p` (the interval tree returns them in an
unspecified order; the build order is used here). -/
def findIntervals (ivs : List (Int × Int × Nat)) (p : Int) : List Nat :=
  (ivs.filter (fun iv => decide (iv.1 ≤ p ∧ p < iv.2.1))).map (fun iv => iv.2.2)

/-- The per-element update of the projection step
(realigner_step.cpp:327-345): with `viewPos = p - el.beginPos`, skip the
element when `viewPos` is `0` or `el.endPos - el.beginPos` (leading and
trailing case), otherwise insert `w - delta` gap symbols at `viewPos`
into its gapped sequence, where `delta` is the element's read's recorded
insertion length at `p` (`0` if none). -/
def updateOneRead (ri : ReadInsT) (p : Int) (w : Nat) (el : TAlignedRead) : TAlignedRead :=
  let viewPos : Int := p - el.beginPos
  if viewPos = 0 ∨ viewPos = el.endPos - el.beginPos then el
  else
    let delta : Nat := riLookupD ri el.readId p
    { el with gaps := insertGaps el.gaps viewPos.toNat ((w : Int) - (delta : Int)).toNat }

/-- The loop over the overlap-query results
(realigner_step.cpp:325-346).  Each returned cargo is used as a
position: `store.alignedReadStore[alignmentID]` indexes the aligned-read
store, which was sorted after the ids were assigned; the element at that
position is read, updated and written back. -/
def applyColumnToReads (ri : ReadInsT) (results : List Nat) (p : Int) (w : Nat)
    (store : List TAlignedRead) : List TAlignedRead :=
  results.foldl (fun st aid =>
    match st.get? aid with
    | none => st
    | some el => st.set aid (updateOneRead ri p w el)) store

/-- `lowerBoundAlignedReads(store, key, SortBeginPos)` followed by the
shifting loop (realigner_step.cpp:347-355): on the begin-sorted store,
every element from the first one with `beginPos ≥ key` to the end gets
both `beginPos` and `endPos` moved forward by `w`. -/
def shiftFromLowerBound : List TAlignedRead → Int → Nat → List TAlignedRead
  | [], _, _ => []
  | el :: rest, key, w =>
    if key ≤ el.beginPos then
      (el :: rest).map (fun x => { x with beginPos := x.beginPos + (w : Int),
                                          endPos := x.endPos + (w : Int) })
    else el :: shiftFromLowerBound rest key w

/-- Processing of one reference-gap column `(p, w)` inside the
projection loop (realigner_step.cpp:320-356): update the reads returned
by the overlap query, then shift every read at or after the column's
view coordinate. -/
def columnStep (ri : ReadInsT) (ivs : List (Int × Int × Nat)) (contigGaps : GapSeq)
    (store : List TAlignedRead) (pw : Int × Nat) : List TAlignedRead :=
  let st1 := applyColumnToReads ri (findIntervals ivs pw.1) pw.1 pw.2 store
  shiftFromLowerBound st1 (toViewPositionI contigGaps pw.1) pw.2

/-- The read-projection pass: fold `columnStep` over the reference-gap
entries in strictly descending key order. -/
def projectReads (ri : ReadInsT) (ivs : List (Int × Int × Nat)) (contigGaps : GapSeq)
    (refGapsDesc : List (Int × Nat)) (store : List TAlignedRead) : List TAlignedRead :=
  refGapsDesc.foldl (columnStep ri ivs contigGaps) store

/-- The contig pass (realigner_step.cpp:359-365): insert every column's
width into the reference's own gapped sequence, again in descending key
order. -/
def insertContigGaps (contigGaps : GapSeq) (refGapsDesc : List (Int × Nat)) : GapSeq :=
  refGapsDesc.foldl (fun g pw => insertGaps g pw.1.toNat pw.2) contigGaps

/-- The result of `RealignerStepImpl::buildFragmentStore`. -/
structure BuildOut where
  readSeqStore : List (List Char)
  alignedReads : List TAlignedRead
  contigGaps : GapSeq
  refGaps : RefGapsT
  readIns : ReadInsT
deriving DecidableEq, Repr

/-- `RealignerStepImpl::buildFragmentStore`
(realigner_step.cpp:178-376): ingest all records, sort the aligned
reads, build the overlap index from the still-gapless contig gaps,
project every reference-gap column into the overlapping reads from the
highest key down, and finally insert the columns into the contig. -/
def buildFragmentStore (regionBegin : Int) (ref : List Char)
    (records : List BamAlignmentRecord) : BuildOut :=
  let ing := ingestAll regionBegin records
  let sorted := sortAlignedReads ing.alignedReads
  let contigGaps : GapSeq := ref.map some
  let ivs := buildIntervals contigGaps sorted
  let desc := ing.refGaps.reverse
  { readSeqStore := ing.readSeqStore,
    alignedReads := projectReads ing.readIns ivs contigGaps desc sorted,
    contigGaps := insertContigGaps contigGaps desc,
    refGaps := ing.refGaps,
    readIns := ing.readIns }

/-- A genomic region: contig name, resolved contig id, begin and end
(half-open).  The loader's comparisons are on `int` values
(realigner_step.cpp:85-88,158), modelled with `Int`. -/
structure GenomicRegion where
  seqName : String
  rID : Int
  beginPos : Int
  endPos : Int
deriving DecidableEq, Repr

/-- `RealignerStepImpl::extendRegion()` (realigner_step.cpp:76-81).
`region.beginPos` and `region.endPos` are unsigned 32-bit values:
`region.beginPos -= options.windowRadius` wraps modulo `2^32`, then
`region.beginPos = std::max(0u, region.beginPos)` compares two unsigned
values, and `region.endPos += options.windowRadius`.  Returns the new
`(beginPos, endPos)`. -/
def extendRegionByRadius (beginPos endPos windowRadius : Nat) : Nat × Nat :=
  let b1 := (beginPos + (4294967296 - windowRadius % 4294967296)) % 4294967296
  let b2 := max 0 b1
  (b2, (endPos + windowRadius) % 4294967296)

/-- `RealignerStepImpl::extendRegion(record)`
(realigner_step.cpp:83-89): a record on a different contig leaves the
region untouched; otherwise the region grows to cover the record's
aligned span. -/
def extendRegionRecord (region : GenomicRegion) (rec : BamAlignmentRecord) : GenomicRegion :=
  if rec.rID ≠ region.rID then region
  else { region with
           beginPos := min region.beginPos rec.beginPos,
           endPos := max region.endPos (rec.beginPos + (getAlignmentLengthInRef rec.cigar : Int)) }

/-- The record-reading loop of `RealignerStepImpl::loadAlignments`
(realigner_step.cpp:152-162) on the stream left positioned by
`jumpToRegion`: stop at a record with `INVALID_REFID` (`-1`) or with
`(rID, beginPos)` lexicographically above `(region.rID, region.endPos)`;
otherwise extend the region by the record and keep it.  Returns the
final region and the kept records. -/
def loadLoop (region : GenomicRegion) : List BamAlignmentRecord → GenomicRegion × List BamAlignmentRecord
  | [] => (region, [])
  | rec :: rest =>
    if rec.rID = -1 then (region, [])
    else if region.rID < rec.rID ∨ (rec.rID = region.rID ∧ region.endPos < rec.beginPos) then
      (region, [])
    else
      let region1 := extendRegionRecord region rec
      let r := loadLoop region1 rest
      (r.1, rec :: r.2)

/-- A record's aligned span `[beginPos, beginPos + lengthInRef)` has a
nonempty intersection with the region's window `[beginPos, endPos)`. -/
def overlapsRegion (rec : BamAlignmentRecord) (reg : GenomicRegion) : Prop :=
  max rec.beginPos reg.beginPos <
    min (rec.beginPos + (getAlignmentLengthInRef rec.cigar : Int)) reg.endPos

/-- The stream order guaranteed by a coordinate-sorted alignment file:
nondecreasing in `(rID, beginPos)` lexicographically. -/
def lexSorted (stream : List BamAlignmentRecord) : Prop :=
  stream.Pairwise (fun a b => a.rID < b.rID ∨ (a.rID = b.rID ∧ a.beginPos ≤ b.beginPos))

/-- The observable state of the application
(`BamRealignerAppImpl`): everything printed to the console so far, and
the regions for which a realignment step was ever run. -/
structure AppState where
  printed : List String
  realignerRuns : List GenomicRegion
deriving DecidableEq, Repr

/-- Running the realignment step for a region (the effect constructing
and running a `RealignerStep` would have on the observable state).  The
application never calls this. -/
def realignerStepRun (st : AppState) (region : GenomicRegion) : AppState :=
  { st with realignerRuns := st.realignerRuns ++ [region] }

/-- `BamRealignerAppImpl::processOneRegion`
(bam_realigner_app.cpp:138-140): the body is empty. -/
def processOneRegion (st : AppState) (_region : GenomicRegion) : AppState :=
  st

/-- `GenomicRegion::toString` as printed into the buffer:
`seqName:(beginPos+1)-endPos`. -/
def regionBufferString (r : GenomicRegion) : String :=
  r.seqName ++ ":" ++ toString (r.beginPos + 1) ++ "-" ++ toString r.endPos

/-- The region loop of `BamRealignerAppImpl::processAllRegions`
(bam_realigner_app.cpp:122-133): for each region, print the progress
line and call `processOneRegion`. -/
def processRegionsLoop : AppState → Nat → List GenomicRegion → AppState
  | st, _, [] => st
  | st, no, r :: rest =>
    let st1 := { st with printed := st.printed ++
                   ["Processing (#" ++ toString no ++ ") " ++ regionBufferString r] }
    processRegionsLoop (processOneRegion st1 r) (no + 1) rest

/-- `BamRealignerAppImpl::processAllRegions`
(bam_realigner_app.cpp:116-136): run the region loop starting at
counter `1`, then print the trailing " DONE" line. -/
def processAllRegions (st : AppState) (regions : List GenomicRegion) : AppState :=
  let st1 := processRegionsLoop st 1 regions
  { st1 with printed := st1.printed ++ [" DONE"] }

/-- The progress lines the region loop prints, starting at a given
counter value. -/
def loopTrace : Nat → List GenomicRegion → List String
  | _, [] => []
  | no, r :: rest =>
    ("Processing (#" ++ toString no ++ ") " ++ regionBufferString r) :: loopTrace (no + 1) rest

/-! Concrete inputs used by the worked example and the
counterexamples. -/

/-- Worked-example Read A: begin 1, CIGAR M2 I1 M2, bases ACTCG. -/
def recA : BamAlignmentRecord :=
  { qName := "readA", rID := 0, beginPos := 1,
    cigar := [⟨.M, 2⟩, ⟨.I, 1⟩, ⟨.M, 2⟩],
    seq := ['A', 'C', 'T', 'C', 'G'], unmapped := false }

/-- Worked-example Read B: begin 1, CIGAR M4, bases ACCG. -/
def recB : BamAlignmentRecord :=
  { qName := "readB", rID := 0, beginPos := 1,
    cigar := [⟨.M, 4⟩],
    seq := ['A', 'C', 'C', 'G'], unmapped := false }

/-- The worked-example reference window AACCGG. -/
def refAACCGG : List Char := ['A', 'A', 'C', 'C', 'G', 'G']

/-- Sorted-store mismatch input, read 0: begin 1, CIGAR M6. -/
def recP0 : BamAlignmentRecord :=
  { qName := "p0", rID := 0, beginPos := 1,
    cigar := [⟨.M, 6⟩],
    seq := ['A', 'A', 'A', 'A', 'A', 'A'], unmapped := false }

/-- Sorted-store mismatch input, read 1: begin 1, CIGAR M3. -/
def recP1 : BamAlignmentRecord :=
  { qName := "p1", rID := 0, beginPos := 1,
    cigar := [⟨.M, 3⟩],
    seq := ['A', 'A', 'A'], unmapped := false }

/-- Sorted-store mismatch input, read 2: begin 4, CIGAR M1 I1 M3, with
an insertion at reference position 5. -/
def recP2 : BamAlignmentRecord :=
  { qName := "p2", rID := 0, beginPos := 4,
    cigar := [⟨.M, 1⟩, ⟨.I, 1⟩, ⟨.M, 3⟩],
    seq := ['A', 'G', 'A', 'A', 'A'], unmapped := false }

/-- A ten-base reference window of As. -/
def refTenA : List Char :=
  ['A', 'A', 'A', 'A', 'A', 'A', 'A', 'A', 'A', 'A']

/-- Leading-insertion input, covering read: begin 0, CIGAR M4. -/
def recY : BamAlignmentRecord :=
  { qName := "y", rID := 0, beginPos := 0,
    cigar := [⟨.M, 4⟩],
    seq := ['A', 'A', 'A', 'A'], unmapped := false }

/-- Leading-insertion input: begin 2, CIGAR I1 M2 — one base inserted
before the first aligned base. -/
def recX : BamAlignmentRecord :=
  { qName := "x", rID := 0, beginPos := 2,
    cigar := [⟨.I, 1⟩, ⟨.M, 2⟩],
    seq := ['G', 'A', 'A'], unmapped := false }

/-- A four-base reference window of As. -/
def refFourA : List Char := ['A', 'A', 'A', 'A']

/-- Loader counterexample region: contig id 0, window [10, 20). -/
def regW : GenomicRegion :=
  { seqName := "chr1", rID := 0, beginPos := 10, endPos := 20 }

/-- Loader counterexample record: fully soft-clipped (CIGAR S5), begin
12 — consumes no reference base. -/
def recS : BamAlignmentRecord :=
  { qName := "s", rID := 0, beginPos := 12,
    cigar := [⟨.S, 5⟩],
    seq := ['A', 'A', 'A', 'A', 'A'], unmapped := false }

/-- Loader witness record: begin 12, CIGAR M3. -/
def recM3 : BamAlignmentRecord :=
  { qName := "m", rID := 0, beginPos := 12,
    cigar := [⟨.M, 3⟩],
    seq := ['A', 'A', 'A'], unmapped := false }

/-! Claim theorems. -/

/-- C3: on the worked-example input — reference window AACCGG at
positions 0–5, Read A at position 1 with CIGAR [M2, I1, M2] and bases
ACTCG, Read B at position 1 with CIGAR [M4] and bases ACCG — the
pipeline produces the reference-gap table {3 ↦ 1}, the gapped reference
AAC-CGG, Read A's gapped sequence ACTCG unchanged, and Read B's gapped
sequence AC-CG. -/
theorem worked_example_pipeline :
    (buildFragmentStore 0 refAACCGG [recA, recB]).refGaps = [(3, 1)]
    ∧ (buildFragmentStore 0 refAACCGG [recA, recB]).contigGaps =
        [some 'A', some 'A', some 'C', none, some 'C', some 'G', some 'G']
    ∧ ((buildFragmentStore 0 refAACCGG [recA, recB]).alignedReads.filter
        (fun el => el.readId = 0)).map (fun el => el.gaps) =
        [[some 'A', some 'C', some 'T', some 'C', some 'G']]
    ∧ ((buildFragmentStore 0 refAACCGG [recA, recB]).alignedReads.filter
        (fun el => el.readId = 1)).map (fun el => el.gaps) =
        [[some 'A', some 'C', none, some 'C', some 'G']] := by
  decide

/-- C1: evaluation of `buildFragmentStore` on three ordinary records
(two reads starting at position 1 whose end positions 7 and 4 are out
of order after the end-position sort, and one read inserting one base at
reference position 5).  The reference-gap table holds the column
(5, 1), the aligned read with id 0 spans [1, 7) and covers position 5
internally with no recorded own insertion there — yet it ends the
projection pass with no gap symbol at all, because the projection loop
dereferences the begin-sorted store positionally with the pre-sort
alignment id as the index, so the column is applied to the read at store
position 0 (id 1, span [1, 4)) instead. -/
theorem projection_misses_covering_read :
    (buildFragmentStore 0 refTenA [recP0, recP1, recP2]).refGaps = [(5, 1)]
    ∧ ((buildFragmentStore 0 refTenA [recP0, recP1, recP2]).alignedReads.filter
        (fun el => el.id = 0)).map (fun el => (el.beginPos, el.endPos, el.gaps.count none)) =
        [(1, 7, 0)]
    ∧ riLookupD (buildFragmentStore 0 refTenA [recP0, recP1, recP2]).readIns 0 5 = 0
    ∧ ((buildFragmentStore 0 refTenA [recP0, recP1, recP2]).alignedReads.filter
        (fun el => el.id = 1)).map (fun el => (el.beginPos, el.endPos, el.gaps.count none)) =
        [(1, 4, 1)] := by
  decide

/-- C6 counterexample: with read y spanning [0, 4) (CIGAR M4) and read x
at position 2 whose CIGAR I1 M2 starts with a leading insertion, it is
not the case that ingestion shifts x's begin position forward by the
insertion's length (to 3) and that read y receives no projected gap
symbol: ingestion leaves x's begin at 2, and the leading insertion is
recorded as reference-gap column (2, 1) which the projection inserts
into y. -/
theorem leading_insertion_shared_column :
    ¬ (((ingestAll 0 [recY, recX]).alignedReads.filter
          (fun el => el.readId = 1)).map (fun el => el.beginPos) = [3]
        ∧ ((buildFragmentStore 0 refFourA [recY, recX]).alignedReads.filter
          (fun el => el.readId = 0)).map (fun el => el.gaps.count none) = [0]) := by
  decide

/-- C7 counterexample: the window [10, 20) on contig 0 and a stream
holding one fully soft-clipped record at position 12 (CIGAR S5, zero
reference length).  The loader keeps the record and leaves the region at
[10, 20), but the record's aligned span [12, 12) is empty, so it does
not overlap the final extended window. -/
theorem loaded_record_without_overlap :
    (loadLoop regW [recS]).2 = [recS]
    ∧ ¬ overlapsRegion recS (loadLoop regW [recS]).1 := by
  refine ⟨by decide, ?_⟩
  show ¬ (_ < _)
  decide

/-- C8: evaluation of `RealignerStepImpl::extendRegion()` at a region
beginning at 5 with window radius 10.  The unsigned subtraction wraps to
4294967291 = (5 - 10) mod 2^32 and the subsequent `std::max(0u, ·)` is
an identity on an unsigned value, so the begin position is not clamped
to max(0, 5 - 10) = 0. -/
theorem radius_extension_wraps :
    (extendRegionByRadius 5 20 10).1 = 4294967291
    ∧ ((4294967291 : Int) ≠ max 0 ((5 : Int) - 10)) := by
  constructor
  · rfl
  · decide

/-! Helper lemmas about gapped sequences. -/

theorem ungap_insertGaps (g : GapSeq) (v c : Nat) :
    ungap (insertGaps g v c) = ungap g := by
  simp only [ungap, insertGaps, List.filterMap_append]
  have h1 : (List.replicate c (none : Option Char)).filterMap id = [] := by simp
  rw [h1]
  rw [List.append_nil, ← List.filterMap_append, List.take_append_drop]

theorem ungap_map_some (s : List Char) : ungap (s.map some) = s := by
  simp [ungap]

theorem ungap_replicate_none (n : Nat) :
    ungap (List.replicate n (none : Option Char)) = [] := by
  simp [ungap]

theorem ungap_append (a b : GapSeq) : ungap (a ++ b) = ungap a ++ ungap b := by
  simp [ungap]

theorem ungap_cigarToGapAnchorRead (c : List CigarElem) (s : List Char) :
    ungap (cigarToGapAnchorRead c s).1 = s := by
  induction c generalizing s with
  | nil => simp [cigarToGapAnchorRead, ungap_map_some]
  | cons e es ih =>
    have htake : ∀ n,
        ungap ((s.take n).map some ++ (cigarToGapAnchorRead es (s.drop n)).1) = s := by
      intro n
      rw [ungap_append, ungap_map_some, ih, List.take_append_drop]
    cases hop : e.op <;>
        simp only [cigarToGapAnchorRead, hop] <;>
        first
          | exact htake e.cnt
          | exact ih s
          | rw [ungap_append, ungap_replicate_none, List.nil_append, ih]

theorem toViewPosition_gapless (ref : List Char) (s : Nat) :
    toViewPosition (ref.map some) s = s := by
  induction ref generalizing s with
  | nil => simp [toViewPosition]
  | cons a l ih =>
    cases s with
    | zero => simp [toViewPosition]
    | succ s => simp [toViewPosition, ih]

/-! Helper lemmas about the stable sort of the aligned-read store. -/

theorem perm_orderedInsertBy (key : TAlignedRead → Int) (x : TAlignedRead) :
    ∀ l : List TAlignedRead, (orderedInsertBy key x l).Perm (x :: l) := by
  intro l
  induction l with
  | nil => simp [orderedInsertBy]
  | cons y ys ih =>
    simp only [orderedInsertBy]
    split
    · exact List.Perm.refl _
    · exact (ih.cons y).trans (List.Perm.swap x y ys)

theorem perm_insertionSortBy (key : TAlignedRead → Int) :
    ∀ l : List TAlignedRead, (insertionSortBy key l).Perm l := by
  intro l
  induction l with
  | nil => simp [insertionSortBy]
  | cons x xs ih =>
    exact (perm_orderedInsertBy key x (insertionSortBy key xs)).trans (ih.cons x)

theorem perm_sortAlignedReads (l : List TAlignedRead) :
    (sortAlignedReads l).Perm l := by
  exact (perm_insertionSortBy _ _).trans (perm_insertionSortBy _ _)

/-! Helper lemmas for the read-sequence invariant of the pipeline. -/

/-- The sequence stored for a read id (`store.readSeqStore[readId]`). -/
def seqAt (seqs : List (List Char)) (i : Nat) : List Char :=
  (seqs.get? i).getD []

theorem seqAt_append_new (seqs : List (List Char)) (s : List Char) :
    seqAt (seqs ++ [s]) seqs.length = s := by
  induction seqs with
  | nil => rfl
  | cons t ts ih => simpa [seqAt, List.get?] using ih

theorem seqAt_append_old (seqs : List (List Char)) (s : List Char) (i : Nat)
    (h : i < seqs.length) : seqAt (seqs ++ [s]) i = seqAt seqs i := by
  induction seqs generalizing i with
  | nil => exact absurd h (by simp)
  | cons t ts ih =>
    cases i with
    | zero => rfl
    | succ i => simpa [seqAt, List.get?] using ih i (by simpa using h)

/-- The invariant carried through the pipeline: an aligned read's id
indexes a stored sequence, and its gapped sequence ungaps to it. -/
def goodEl (seqs : List (List Char)) (el : TAlignedRead) : Prop :=
  el.readId < seqs.length ∧ ungap el.gaps = seqAt seqs el.readId

theorem ingestRecord_readSeqStore (regionBegin : Int) (acc : IngestOut)
    (rec : BamAlignmentRecord) :
    (ingestRecord regionBegin acc rec).readSeqStore = acc.readSeqStore ++ [rec.seq] := by
  simp only [ingestRecord]
  split <;> rfl

theorem ingest_readSeqStore (regionBegin : Int) :
    ∀ (records : List BamAlignmentRecord) (acc : IngestOut),
      (records.foldl (ingestRecord regionBegin) acc).readSeqStore =
        acc.readSeqStore ++ records.map (fun r => r.seq) := by
  intro records
  induction records with
  | nil => simp
  | cons r rs ih =>
    intro acc
    simp only [List.foldl_cons, List.map_cons, ih, ingestRecord_readSeqStore,
      List.append_assoc, List.cons_append, List.nil_append]

theorem ingestRecord_good (regionBegin : Int) (acc : IngestOut) (rec : BamAlignmentRecord)
    (h : ∀ el ∈ acc.alignedReads, goodEl acc.readSeqStore el) :
    ∀ el ∈ (ingestRecord regionBegin acc rec).alignedReads,
      goodEl (ingestRecord regionBegin acc rec).readSeqStore el := by
  intro el hel
  have hold : ∀ el2 ∈ acc.alignedReads, goodEl (acc.readSeqStore ++ [rec.seq]) el2 := by
    intro el2 hel2
    obtain ⟨hlt, heq⟩ := h el2 hel2
    exact ⟨by simpa using Nat.lt_succ_of_lt hlt, by rw [seqAt_append_old _ _ _ hlt]; exact heq⟩
  rw [ingestRecord_readSeqStore]
  simp only [ingestRecord] at hel
  split at hel
  · exact hold el hel
  · simp only [List.mem_append, List.mem_singleton] at hel
    rcases hel with hel | hel
    · exact hold el hel
    · subst hel
      refine ⟨by simp, ?_⟩
      simp only [ungap_cigarToGapAnchorRead]
      exact (seqAt_append_new acc.readSeqStore rec.seq).symm

theorem ingest_good (regionBegin : Int) :
    ∀ (records : List BamAlignmentRecord) (acc : IngestOut),
      (∀ el ∈ acc.alignedReads, goodEl acc.readSeqStore el) →
      ∀ el ∈ (records.foldl (ingestRecord regionBegin) acc).alignedReads,
        goodEl (records.foldl (ingestRecord regionBegin) acc).readSeqStore el := by
  intro records
  induction records with
  | nil => intro acc h; exact h
  | cons r rs ih =>
    intro acc h
    exact ih (ingestRecord regionBegin acc r) (ingestRecord_good regionBegin acc r h)

theorem updateOneRead_readId (ri : ReadInsT) (p : Int) (w : Nat) (el : TAlignedRead) :
    (updateOneRead ri p w el).readId = el.readId := by
  simp only [updateOneRead]
  split <;> rfl

theorem updateOneRead_beginPos (ri : ReadInsT) (p : Int) (w : Nat) (el : TAlignedRead) :
    (updateOneRead ri p w el).beginPos = el.beginPos := by
  simp only [updateOneRead]
  split <;> rfl

theorem updateOneRead_endPos (ri : ReadInsT) (p : Int) (w : Nat) (el : TAlignedRead) :
    (updateOneRead ri p w el).endPos = el.endPos := by
  simp only [updateOneRead]
  split <;> rfl

theorem updateOneRead_ungap (ri : ReadInsT) (p : Int) (w : Nat) (el : TAlignedRead) :
    ungap (updateOneRead ri p w el).gaps = ungap el.gaps := by
  simp only [updateOneRead]
  split
  · rfl
  · exact ungap_insertGaps _ _ _

theorem applyColumnToReads_pres (ri : ReadInsT) (p : Int) (w : Nat)
    (Q : TAlignedRead → Prop)
    (hQ : ∀ el, Q el → Q (updateOneRead ri p w el)) :
    ∀ (results : List Nat) (st : List TAlignedRead),
      (∀ el ∈ st, Q el) → ∀ el ∈ applyColumnToReads ri results p w st, Q el := by
  intro results
  induction results with
  | nil => intro st h; exact h
  | cons aid rest ih =>
    intro st h
    simp only [applyColumnToReads, List.foldl_cons]
    cases hget : st.get? aid with
    | none =>
      simp only [hget]
      exact ih st h
    | some el2 =>
      simp only [hget]
      refine ih _ ?_
      intro el hel
      rcases List.mem_or_eq_of_mem_set hel with hel | hel
      · exact h el hel
      · subst hel
        exact hQ el2 (h el2 (List.get?_mem hget))

theorem shiftFromLowerBound_pres (Q : TAlignedRead → Prop)
    (hb : ∀ el w2, Q el → Q { el with beginPos := el.beginPos + (w2 : Int),
                                      endPos := el.endPos + (w2 : Int) }) :
    ∀ (st : List TAlignedRead) (key : Int) (w : Nat),
      (∀ el ∈ st, Q el) → ∀ el ∈ shiftFromLowerBound st key w, Q el := by
  intro st
  induction st with
  | nil => intro key w h el hel; simp [shiftFromLowerBound] at hel
  | cons x xs ih =>
    intro key w h el hel
    simp only [shiftFromLowerBound] at hel
    split at hel
    · simp only [List.mem_map] at hel
      obtain ⟨y, hy, rfl⟩ := hel
      exact hb y w (h y hy)
    · simp only [List.mem_cons] at hel
      rcases hel with rfl | hel
      · exact h el (List.mem_cons_self _ _)
      · exact ih key w (fun e he => h e (List.mem_cons_of_mem _ he)) el hel

theorem projectReads_pres (ri : ReadInsT) (ivs : List (Int × Int × Nat)) (cg : GapSeq)
    (Q : TAlignedRead → Prop)
    (hQ : ∀ p w el, Q el → Q (updateOneRead ri p w el))
    (hb : ∀ el w2, Q el → Q { el with beginPos := el.beginPos + (w2 : Int),
                                      endPos := el.endPos + (w2 : Int) }) :
    ∀ (desc : List (Int × Nat)) (st : List TAlignedRead),
      (∀ el ∈ st, Q el) → ∀ el ∈ projectReads ri ivs cg desc st, Q el := by
  intro desc
  induction desc with
  | nil => intro st h; exact h
  | cons pw rest ih =>
    intro st h
    simp only [projectReads, List.foldl_cons]
    refine ih _ ?_
    simp only [columnStep]
    refine shiftFromLowerBound_pres Q hb _ _ _ ?_
    exact applyColumnToReads_pres ri pw.1 pw.2 Q (hQ pw.1 pw.2) _ st h

/-- C2: for every read processed through ingestion and gap projection,
reading the read's final gapped sequence back without its gap symbols
reproduces the read's original base sequence exactly: the read sequence
store holds each record's sequence unchanged, and every aligned read's
gapped sequence ungaps to the stored sequence of its read id. -/
theorem ungap_roundtrip (regionBegin : Int) (ref : List Char)
    (records : List BamAlignmentRecord) :
    (buildFragmentStore regionBegin ref records).readSeqStore =
      records.map (fun r => r.seq)
    ∧ ∀ el ∈ (buildFragmentStore regionBegin ref records).alignedReads,
        ungap el.gaps =
          seqAt (buildFragmentStore regionBegin ref records).readSeqStore el.readId := by
  constructor
  · show (ingestAll regionBegin records).readSeqStore = _
    rw [ingestAll, ingest_readSeqStore]
    rfl
  · intro el hel
    have hing : ∀ el2 ∈ (ingestAll regionBegin records).alignedReads,
        goodEl (ingestAll regionBegin records).readSeqStore el2 :=
      ingest_good regionBegin records emptyIngest (by intro e he; simp [emptyIngest] at he)
    have hsorted : ∀ el2 ∈ sortAlignedReads (ingestAll regionBegin records).alignedReads,
        goodEl (ingestAll regionBegin records).readSeqStore el2 := by
      intro el2 hel2
      exact hing el2 ((perm_sortAlignedReads _).mem_iff.mp hel2)
    have hproj := projectReads_pres (ingestAll regionBegin records).readIns
      (buildIntervals (ref.map some)
        (sortAlignedReads (ingestAll regionBegin records).alignedReads))
      (ref.map some) (goodEl (ingestAll regionBegin records).readSeqStore)
      (fun p w el2 h2 => ⟨by rw [updateOneRead_readId]; exact h2.1,
        by rw [updateOneRead_ungap, updateOneRead_readId]; exact h2.2⟩)
      (fun el2 w2 h2 => h2)
      (ingestAll regionBegin records).refGaps.reverse _ hsorted
    exact (hproj el hel).2

/-- C2 witness: at the worked-example input, the aligned read with read
id 1 ungaps to the stored sequence ACCG. -/
theorem ungap_roundtrip_witness :
    ungap [some 'A', some 'C', none, some 'C', some 'G'] =
      seqAt (buildFragmentStore 0 refAACCGG [recA, recB]).readSeqStore 1 := by
  have h := (ungap_roundtrip 0 refAACCGG [recA, recB]).2
    { id := 1, readId := 1, beginPos := 1, endPos := 5,
      gaps := [some 'A', some 'C', none, some 'C', some 'G'] }
    (by decide)
  exact h

/-- C10: the application's region loop only parses and prints: the
per-region processing call is the identity on the observable state, and
running `processAllRegions` changes nothing but the printed lines — in
particular the set of realigner runs is left exactly as it was, so the
realignment step is never invoked. -/
theorem region_loop_prints_only (st : AppState) (regions : List GenomicRegion) :
    processAllRegions st regions =
      { printed := st.printed ++ loopTrace 1 regions ++ [" DONE"],
        realignerRuns := st.realignerRuns }
    ∧ ∀ (st2 : AppState) (r : GenomicRegion), processOneRegion st2 r = st2 := by
  have hloop : ∀ (rs : List GenomicRegion) (s : AppState) (no : Nat),
      processRegionsLoop s no rs =
        { printed := s.printed ++ loopTrace no rs, realignerRuns := s.realignerRuns } := by
    intro rs
    induction rs with
    | nil => intro s no; simp [processRegionsLoop, loopTrace]
    | cons r rest ih =>
      intro s no
      simp [processRegionsLoop, loopTrace, processOneRegion, ih, List.append_assoc]
  constructor
  · simp [processAllRegions, hloop, List.append_assoc]
  · intro st2 r
    rfl

/-! Helper lemmas about the reference-gap table. -/

theorem lookupO_minsert (m : RefGapsT) (k : Int) (v : Nat) (p : Int) :
    lookupO (minsert m k v) p = if p = k then some v else lookupO m p := by
  induction m with
  | nil => simp [minsert, lookupO]
  | cons hd rest ih =>
    obtain ⟨k2, v2⟩ := hd
    by_cases h1 : k < k2
    · simp only [minsert, if_pos h1, lookupO]
    · by_cases h2 : k = k2
      · simp only [minsert, if_neg h1, if_pos h2, lookupO]
        by_cases hp : p = k
        · simp [hp]
        · have hp2 : ¬ p = k2 := by omega
          simp [hp, hp2]
      · have hk2 : k2 < k := by omega
        simp only [minsert, if_neg h1, if_neg h2, lookupO, ih]
        by_cases hp : p = k2
        · have hpk : ¬ p = k := by omega
          have hk2k : ¬ k2 = k := by omega
          simp [hp, hpk, hk2k]
        · simp [hp]

theorem lookupD_refGapStep (rg : RefGapsT) (ev : Int × Nat) (p : Int) :
    lookupD (refGapStep rg ev) p =
      if p = ev.1 then max (lookupD rg ev.1) ev.2 else lookupD rg p := by
  simp only [refGapStep, lookupD, lookupO_minsert]
  split <;> rfl

theorem lookupD_refGapStep_mono (rg : RefGapsT) (ev : Int × Nat) (p : Int) :
    lookupD rg p ≤ lookupD (refGapStep rg ev) p := by
  rw [lookupD_refGapStep]
  split
  · rename_i h
    rw [h]
    exact Nat.le_max_left _ _
  · exact Nat.le_refl _

/-- Keys of the reference-gap table are strictly ascending (the
`std::map` iteration-order invariant). -/
def sortedKeysLt (m : RefGapsT) : Prop :=
  m.Pairwise (fun a b => a.1 < b.1)

theorem mem_minsert (k : Int) (v : Nat) :
    ∀ (m : RefGapsT) (x : Int × Nat), x ∈ minsert m k v → x = (k, v) ∨ x ∈ m := by
  intro m
  induction m with
  | nil => intro x hx; simpa [minsert] using hx
  | cons hd rest ih =>
    intro x hx
    obtain ⟨k2, v2⟩ := hd
    simp only [minsert] at hx
    split at hx
    · simpa [List.mem_cons] using hx
    · split at hx
      · rcases List.mem_cons.mp hx with h | h
        · exact Or.inl h
        · exact Or.inr (List.mem_cons_of_mem _ h)
      · rcases List.mem_cons.mp hx with h | h
        · exact Or.inr (h ▸ List.mem_cons_self _ _)
        · rcases ih x h with h2 | h2
          · exact Or.inl h2
          · exact Or.inr (List.mem_cons_of_mem _ h2)

theorem minsert_sorted (k : Int) (v : Nat) :
    ∀ m : RefGapsT, sortedKeysLt m → sortedKeysLt (minsert m k v) := by
  intro m
  induction m with
  | nil => intro _; simp [minsert, sortedKeysLt]
  | cons hd rest ih =>
    intro h
    obtain ⟨k2, v2⟩ := hd
    rw [sortedKeysLt, List.pairwise_cons] at h
    obtain ⟨hhd, hrest⟩ := h
    simp only [minsert]
    by_cases h1 : k < k2
    · rw [if_pos h1]
      refine List.Pairwise.cons ?_ (List.Pairwise.cons hhd hrest)
      intro x hx
      rcases List.mem_cons.mp hx with rfl | hx
      · exact h1
      · exact lt_trans h1 (hhd x hx)
    · rw [if_neg h1]
      by_cases h2 : k = k2
      · subst h2
        rw [if_pos rfl]
        exact List.Pairwise.cons hhd hrest
      · rw [if_neg h2]
        refine List.Pairwise.cons ?_ (ih hrest)
        intro x hx
        rcases mem_minsert k v rest x hx with rfl | hx
        · show k2 < k
          omega
        · exact hhd x hx

theorem lookupO_eq_of_mem_sorted :
    ∀ m : RefGapsT, sortedKeysLt m → ∀ p w, (p, w) ∈ m → lookupO m p = some w := by
  intro m
  induction m with
  | nil => intro _ p w h; simp at h
  | cons hd rest ih =>
    intro hs p w hmem
    obtain ⟨k2, v2⟩ := hd
    rw [sortedKeysLt, List.pairwise_cons] at hs
    obtain ⟨hhd, hrest⟩ := hs
    rcases List.mem_cons.mp hmem with h | h
    · obtain ⟨rfl, rfl⟩ := Prod.ext_iff.mp h
      simp [lookupO]
    · have hk : k2 < p := hhd (p, w) h
      have : ¬ p = k2 := by omega
      simp only [lookupO, if_neg this]
      exact ih hrest p w h

theorem walk_delta_le (readId : Nat) :
    ∀ (c : List CigarElem) (refPos : Int) (rg : RefGapsT) (ri : ReadInsT),
      (∀ i q, riLookupD ri i q ≤ lookupD rg q) →
      ∀ i q, riLookupD (walkCigarGaps c refPos readId rg ri).2 i q ≤
        lookupD (walkCigarGaps c refPos readId rg ri).1 q := by
  intro c
  induction c with
  | nil => intro refPos rg ri h; exact h
  | cons e es ih =>
    intro refPos rg ri h
    cases hop : e.op <;> simp only [walkCigarGaps, hop]
    case I =>
      refine ih refPos _ _ ?_
      intro i q
      show riLookupD ((readId, refPos, e.cnt) :: ri) i q ≤
        lookupD (refGapStep rg (refPos, e.cnt)) q
      simp only [riLookupD, riLookup]
      by_cases hc : i = readId ∧ q = refPos
      · obtain ⟨rfl, rfl⟩ := hc
        rw [if_pos ⟨rfl, rfl⟩, lookupD_refGapStep, if_pos rfl]
        exact Nat.le_max_right _ _
      · rw [if_neg hc]
        exact le_trans (h i q) (lookupD_refGapStep_mono rg (refPos, e.cnt) q)
    all_goals exact ih _ _ _ h

theorem walk_sorted (readId : Nat) :
    ∀ (c : List CigarElem) (refPos : Int) (rg : RefGapsT) (ri : ReadInsT),
      sortedKeysLt rg → sortedKeysLt (walkCigarGaps c refPos readId rg ri).1 := by
  intro c
  induction c with
  | nil => intro refPos rg ri h; exact h
  | cons e es ih =>
    intro refPos rg ri h
    cases hop : e.op <;> simp only [walkCigarGaps, hop] <;>
      first
        | exact ih _ _ _ h
        | exact ih _ _ _ (minsert_sorted _ _ _ h)

theorem ingestRecord_delta_le (regionBegin : Int) (acc : IngestOut)
    (rec : BamAlignmentRecord)
    (h : ∀ i q, riLookupD acc.readIns i q ≤ lookupD acc.refGaps q) :
    ∀ i q, riLookupD (ingestRecord regionBegin acc rec).readIns i q ≤
      lookupD (ingestRecord regionBegin acc rec).refGaps q := by
  simp only [ingestRecord]
  split
  · exact h
  · exact walk_delta_le _ _ _ _ _ h

theorem ingestRecord_sorted (regionBegin : Int) (acc : IngestOut)
    (rec : BamAlignmentRecord) (h : sortedKeysLt acc.refGaps) :
    sortedKeysLt (ingestRecord regionBegin acc rec).refGaps := by
  simp only [ingestRecord]
  split
  · exact h
  · exact walk_sorted _ _ _ _ _ h

theorem ingest_delta_le (regionBegin : Int) :
    ∀ (records : List BamAlignmentRecord) (acc : IngestOut),
      (∀ i q, riLookupD acc.readIns i q ≤ lookupD acc.refGaps q) →
      ∀ i q, riLookupD (records.foldl (ingestRecord regionBegin) acc).readIns i q ≤
        lookupD (records.foldl (ingestRecord regionBegin) acc).refGaps q := by
  intro records
  induction records with
  | nil => intro acc h; exact h
  | cons r rs ih =>
    intro acc h
    exact ih _ (ingestRecord_delta_le regionBegin acc r h)

theorem ingest_sorted (regionBegin : Int) :
    ∀ (records : List BamAlignmentRecord) (acc : IngestOut),
      sortedKeysLt acc.refGaps →
      sortedKeysLt (records.foldl (ingestRecord regionBegin) acc).refGaps := by
  intro records
  induction records with
  | nil => intro acc h; exact h
  | cons r rs ih =>
    intro acc h
    exact ih _ (ingestRecord_sorted regionBegin acc r h)

/-- C9: for every reference-gap column `(p, w)` of the built store, and
for every read id, the read's recorded own insertion length at `p`
(the `delta` subtracted by the projection step) never exceeds the
column's width `w`, so the gap count `w - delta` handed to `insertGaps`
is never negative. -/
theorem projected_gap_count_nonneg (regionBegin : Int) (ref : List Char)
    (records : List BamAlignmentRecord) (pw : Int × Nat) (idx : Nat)
    (hmem : pw ∈ (buildFragmentStore regionBegin ref records).refGaps) :
    riLookupD (buildFragmentStore regionBegin ref records).readIns idx pw.1 ≤ pw.2
    ∧ 0 ≤ (pw.2 : Int) -
        (riLookupD (buildFragmentStore regionBegin ref records).readIns idx pw.1 : Int) := by
  have hmem2 : pw ∈ (ingestAll regionBegin records).refGaps := hmem
  have hsorted : sortedKeysLt (ingestAll regionBegin records).refGaps :=
    ingest_sorted regionBegin records emptyIngest (by simp [emptyIngest, sortedKeysLt])
  have hle : ∀ i q, riLookupD (ingestAll regionBegin records).readIns i q ≤
      lookupD (ingestAll regionBegin records).refGaps q :=
    ingest_delta_le regionBegin records emptyIngest
      (by intro i q; simp [emptyIngest, riLookupD, riLookup, lookupD, lookupO])
  have hval : lookupO (ingestAll regionBegin records).refGaps pw.1 = some pw.2 :=
    lookupO_eq_of_mem_sorted _ hsorted pw.1 pw.2 hmem2
  have h1 : riLookupD (buildFragmentStore regionBegin ref records).readIns idx pw.1 ≤ pw.2 := by
    have := hle idx pw.1
    rw [lookupD, hval] at this
    exact this
  exact ⟨h1, by omega⟩

/-- C9 witness: at the worked-example input, the column (3, 1) is in
the table and read id 0's recorded delta there is at most 1, giving a
nonnegative projected gap count. -/
theorem projected_gap_count_nonneg_witness :
    riLookupD (buildFragmentStore 0 refAACCGG [recA, recB]).readIns 0 3 ≤ 1
    ∧ 0 ≤ (1 : Int) -
        (riLookupD (buildFragmentStore 0 refAACCGG [recA, recB]).readIns 0 3 : Int) :=
  projected_gap_count_nonneg 0 refAACCGG [recA, recB] (3, 1) 0 (by decide)

/-! Helper lemmas for the reference-gap aggregation (maximum over all
insertion events). -/

/-- The maximum insertion length observed at position `p` over a list of
insertion events. -/
def maxAt (evs : List (Int × Nat)) (p : Int) : Nat :=
  evs.foldr (fun e a => if e.1 = p then max e.2 a else a) 0

/-- Whether any insertion event touches position `p`. -/
def touchedAt (evs : List (Int × Nat)) (p : Int) : Bool :=
  evs.any (fun e => decide (e.1 = p))

/-- The insertion events contributed by one record: none if unmapped,
otherwise the events of its CIGAR walk started at the record's
window-relative begin position corrected by its leading gaps. -/
def eventsOfRecord (regionBegin : Int) (rec : BamAlignmentRecord) : List (Int × Nat) :=
  if rec.unmapped then []
  else cigarEvents rec.cigar
    (rec.beginPos - regionBegin + ((cigarToGapAnchorRead rec.cigar rec.seq).2 : Int))

/-- All insertion events of a record list, in ingestion order. -/
def allEvents (regionBegin : Int) : List BamAlignmentRecord → List (Int × Nat)
  | [] => []
  | r :: rs => eventsOfRecord regionBegin r ++ allEvents regionBegin rs

theorem foldr_max_init (p : Int) :
    ∀ (l : List (Int × Nat)) (a : Nat),
      l.foldr (fun e b => if e.1 = p then max e.2 b else b) a = max (maxAt l p) a := by
  intro l
  induction l with
  | nil => intro a; simp [maxAt]
  | cons e rest ih =>
    intro a
    by_cases h : e.1 = p
    · simp only [maxAt, List.foldr_cons, if_pos h] at *
      rw [ih a, ← Nat.max_assoc]
    · simp only [maxAt, List.foldr_cons, if_neg h] at *
      exact ih a

theorem maxAt_append (l1 l2 : List (Int × Nat)) (p : Int) :
    maxAt (l1 ++ l2) p = max (maxAt l1 p) (maxAt l2 p) := by
  show (l1 ++ l2).foldr _ 0 = _
  rw [List.foldr_append, ← maxAt, foldr_max_init]

theorem touchedAt_append (l1 l2 : List (Int × Nat)) (p : Int) :
    touchedAt (l1 ++ l2) p = (touchedAt l1 p || touchedAt l2 p) := by
  simp [touchedAt, List.any_append]

theorem untouched_maxAt_zero (p : Int) :
    ∀ evs : List (Int × Nat), touchedAt evs p = false → maxAt evs p = 0 := by
  intro evs
  induction evs with
  | nil => intro _; rfl
  | cons e rest ih =>
    intro h
    simp only [touchedAt, List.any_cons, Bool.or_eq_false_iff, decide_eq_false_iff_not] at h
    simp only [maxAt, List.foldr_cons, if_neg h.1]
    exact ih (by simpa [touchedAt] using h.2)

theorem lookupO_fold_events (p : Int) :
    ∀ (evs : List (Int × Nat)) (rg : RefGapsT),
      lookupO (evs.foldl refGapStep rg) p =
        if touchedAt evs p then some (max (lookupD rg p) (maxAt evs p))
        else lookupO rg p := by
  intro evs
  induction evs with
  | nil => intro rg; simp [touchedAt]
  | cons e rest ih =>
    intro rg
    rw [List.foldl_cons, ih]
    by_cases h : e.1 = p
    · have htouch : touchedAt (e :: rest) p = true := by
        simp [touchedAt, List.any_cons, h]
      rw [htouch, if_pos rfl]
      have hD : lookupD (refGapStep rg e) p = max (lookupD rg p) e.2 := by
        rw [lookupD_refGapStep, if_pos h.symm, h]
      have hO : lookupO (refGapStep rg e) p = some (max (lookupD rg e.1) e.2) := by
        rw [refGapStep, lookupO_minsert, if_pos h.symm]
      have hmaxAt : maxAt (e :: rest) p = max e.2 (maxAt rest p) := by
        simp [maxAt, if_pos h]
      by_cases ht : touchedAt rest p
      · rw [if_pos ht, hD, hmaxAt, Nat.max_assoc]
      · rw [if_neg ht, hO, h, hmaxAt, untouched_maxAt_zero p rest (by simpa using ht),
          Nat.max_zero]
    · have htouch : touchedAt (e :: rest) p = touchedAt rest p := by
        simp [touchedAt, List.any_cons, h]
      have hD : lookupD (refGapStep rg e) p = lookupD rg p := by
        rw [lookupD_refGapStep, if_neg (fun hh => h hh.symm)]
      have hO : lookupO (refGapStep rg e) p = lookupO rg p := by
        rw [refGapStep, lookupO_minsert, if_neg (fun hh => h hh.symm)]
      have hmaxAt : maxAt (e :: rest) p = maxAt rest p := by
        simp [maxAt, if_neg h]
      rw [htouch, hD, hO, hmaxAt]

theorem walk_refGaps_events (readId : Nat) :
    ∀ (c : List CigarElem) (refPos : Int) (rg : RefGapsT) (ri : ReadInsT),
      (walkCigarGaps c refPos readId rg ri).1 =
        (cigarEvents c refPos).foldl refGapStep rg := by
  intro c
  induction c with
  | nil => intro refPos rg ri; rfl
  | cons e es ih =>
    intro refPos rg ri
    cases hop : e.op <;> simp only [walkCigarGaps, cigarEvents, hop, List.foldl_cons] <;>
      exact ih _ _ _

theorem ingestRecord_refGaps (regionBegin : Int) (acc : IngestOut)
    (rec : BamAlignmentRecord) :
    (ingestRecord regionBegin acc rec).refGaps =
      (eventsOfRecord regionBegin rec).foldl refGapStep acc.refGaps := by
  simp only [ingestRecord, eventsOfRecord]
  split
  · rfl
  · exact walk_refGaps_events _ _ _ _ _

theorem ingest_refGaps_events (regionBegin : Int) :
    ∀ (records : List BamAlignmentRecord) (acc : IngestOut),
      (records.foldl (ingestRecord regionBegin) acc).refGaps =
        (allEvents regionBegin records).foldl refGapStep acc.refGaps := by
  intro records
  induction records with
  | nil => intro acc; rfl
  | cons r rs ih =>
    intro acc
    rw [List.foldl_cons, ih, allEvents, List.foldl_append, ingestRecord_refGaps]

theorem maxAt_allEvents_perm (regionBegin : Int) (p : Int)
    {records records2 : List BamAlignmentRecord} (h : records.Perm records2) :
    maxAt (allEvents regionBegin records) p = maxAt (allEvents regionBegin records2) p := by
  induction h with
  | nil => rfl
  | cons x _ ih => simp only [allEvents, maxAt_append, ih]
  | swap x y l =>
    simp only [allEvents, maxAt_append]
    rw [← Nat.max_assoc, ← Nat.max_assoc, Nat.max_comm (maxAt (eventsOfRecord regionBegin y) p)]
  | trans _ _ ih1 ih2 => exact ih1.trans ih2

theorem touchedAt_allEvents_perm (regionBegin : Int) (p : Int)
    {records records2 : List BamAlignmentRecord} (h : records.Perm records2) :
    touchedAt (allEvents regionBegin records) p =
      touchedAt (allEvents regionBegin records2) p := by
  induction h with
  | nil => rfl
  | cons x _ ih => simp only [allEvents, touchedAt_append, ih]
  | swap x y l =>
    simp only [allEvents, touchedAt_append]
    rw [← Bool.or_assoc, ← Bool.or_assoc,
      Bool.or_comm (touchedAt (eventsOfRecord regionBegin y) p)]
  | trans _ _ ih1 ih2 => exact ih1.trans ih2

theorem lookupO_none_of_forall_lt (k : Int) :
    ∀ m : RefGapsT, (∀ x ∈ m, k < x.1) → lookupO m k = none := by
  intro m
  induction m with
  | nil => intro _; rfl
  | cons hd rest ih =>
    intro h
    have h1 : k < hd.1 := h hd (List.mem_cons_self _ _)
    have h2 : ¬ k = hd.1 := by omega
    obtain ⟨k2, v2⟩ := hd
    simp only [lookupO, if_neg h2]
    exact ih (fun x hx => h x (List.mem_cons_of_mem _ hx))

theorem sorted_lookup_ext :
    ∀ m1 m2 : RefGapsT, sortedKeysLt m1 → sortedKeysLt m2 →
      (∀ p, lookupO m1 p = lookupO m2 p) → m1 = m2 := by
  intro m1
  induction m1 with
  | nil =>
    intro m2 _ hs2 h
    cases m2 with
    | nil => rfl
    | cons hd t2 =>
      obtain ⟨k2, v2⟩ := hd
      have := h k2
      simp [lookupO] at this
  | cons hd t1 ih =>
    intro m2 hs1 hs2 h
    obtain ⟨k1, v1⟩ := hd
    rw [sortedKeysLt, List.pairwise_cons] at hs1
    obtain ⟨hhd1, ht1⟩ := hs1
    cases m2 with
    | nil =>
      have := h k1
      simp [lookupO] at this
    | cons hd2 t2 =>
      obtain ⟨k2, v2⟩ := hd2
      rw [sortedKeysLt, List.pairwise_cons] at hs2
      obtain ⟨hhd2, ht2⟩ := hs2
      have hk : k1 = k2 := by
        by_contra hne
        rcases lt_or_gt_of_ne hne with hlt | hgt
        · have h1 := h k1
          rw [lookupO_none_of_forall_lt k1 ((k2, v2) :: t2) ?_] at h1
          · simp [lookupO] at h1
          · intro x hx
            rcases List.mem_cons.mp hx with rfl | hx
            · exact hlt
            · exact lt_trans hlt (hhd2 x hx)
        · have h1 := h k2
          rw [lookupO_none_of_forall_lt k2 ((k1, v1) :: t1) ?_] at h1
          · simp [lookupO] at h1
          · intro x hx
            rcases List.mem_cons.mp hx with rfl | hx
            · exact hgt
            · exact lt_trans hgt (hhd1 x hx)
      subst hk
      have hv : v1 = v2 := by
        have h1 := h k1
        simp [lookupO] at h1
        exact h1
      subst hv
      have htails : ∀ p, lookupO t1 p = lookupO t2 p := by
        intro p
        by_cases hp : p = k1
        · subst hp
          rw [lookupO_none_of_forall_lt p t1 hhd1, lookupO_none_of_forall_lt p t2 hhd2]
        · have h1 := h p
          simpa [lookupO, if_neg hp] using h1
      rw [ih t2 ht1 ht2 htails]

/-- C4: the reference-gap table after ingesting all records of a window
holds, at every position, the maximum insertion length over all
insertion events of all records (with an entry present exactly when some
record inserts there), and the table is identical for any ingestion
order of the records. -/
theorem refgap_table_is_max (regionBegin : Int) (ref : List Char)
    (records records2 : List BamAlignmentRecord) (p : Int)
    (hperm : records.Perm records2) :
    lookupD (buildFragmentStore regionBegin ref records).refGaps p =
      maxAt (allEvents regionBegin records) p
    ∧ ((lookupO (buildFragmentStore regionBegin ref records).refGaps p).isSome ↔
        touchedAt (allEvents regionBegin records) p = true)
    ∧ (buildFragmentStore regionBegin ref records).refGaps =
        (buildFragmentStore regionBegin ref records2).refGaps := by
  have hfold : ∀ rs : List BamAlignmentRecord,
      (buildFragmentStore regionBegin ref rs).refGaps =
        (allEvents regionBegin rs).foldl refGapStep [] := by
    intro rs
    show (ingestAll regionBegin rs).refGaps = _
    rw [ingestAll, ingest_refGaps_events]
    rfl
  have hlook : ∀ rs : List BamAlignmentRecord, ∀ q,
      lookupO (buildFragmentStore regionBegin ref rs).refGaps q =
        if touchedAt (allEvents regionBegin rs) q
        then some (maxAt (allEvents regionBegin rs) q) else none := by
    intro rs q
    rw [hfold, lookupO_fold_events]
    simp [lookupD, lookupO]
  refine ⟨?_, ?_, ?_⟩
  · rw [lookupD, hlook]
    by_cases ht : touchedAt (allEvents regionBegin records) p
    · rw [if_pos ht]
      rfl
    · rw [if_neg ht, untouched_maxAt_zero p _ (by simpa using ht)]
      rfl
  · rw [hlook]
    by_cases ht : touchedAt (allEvents regionBegin records) p
    · simp [ht]
    · simp [ht]
  · have hs1 : sortedKeysLt (buildFragmentStore regionBegin ref records).refGaps :=
      ingest_sorted regionBegin records emptyIngest (by simp [emptyIngest, sortedKeysLt])
    have hs2 : sortedKeysLt (buildFragmentStore regionBegin ref records2).refGaps :=
      ingest_sorted regionBegin records2 emptyIngest (by simp [emptyIngest, sortedKeysLt])
    refine sorted_lookup_ext _ _ hs1 hs2 ?_
    intro q
    rw [hlook records q, hlook records2 q,
      touchedAt_allEvents_perm regionBegin q hperm,
      maxAt_allEvents_perm regionBegin q hperm]

/-- C4 witness: at the worked-example input the table's value at 3 is
the maximum event length there, the entry is present, and ingesting the
two reads in the opposite order yields the identical table. -/
theorem refgap_table_is_max_witness :
    lookupD (buildFragmentStore 0 refAACCGG [recA, recB]).refGaps 3 =
      maxAt (allEvents 0 [recA, recB]) 3
    ∧ ((lookupO (buildFragmentStore 0 refAACCGG [recA, recB]).refGaps 3).isSome ↔
        touchedAt (allEvents 0 [recA, recB]) 3 = true)
    ∧ (buildFragmentStore 0 refAACCGG [recA, recB]).refGaps =
        (buildFragmentStore 0 refAACCGG [recB, recA]).refGaps :=
  refgap_table_is_max 0 refAACCGG [recA, recB] [recB, recA] 3
    (List.Perm.swap recB recA [])

/-! Helper lemmas for the shifting step. -/

/-- The aligned-read store is ordered by begin position. -/
def sortedByBegin (store : List TAlignedRead) : Prop :=
  store.Pairwise (fun a b => a.beginPos ≤ b.beginPos)

theorem set_get?_self {α : Type} : ∀ (l : List α) (n : Nat) (a : α),
    l.get? n = some a → l.set n a = l := by
  intro l
  induction l with
  | nil => intro n a h; cases n <;> simp [List.get?] at h
  | cons x xs ih =>
    intro n a h
    cases n with
    | zero =>
      simp only [List.get?] at h
      cases h
      rfl
    | succ n =>
      simp only [List.get?] at h
      simp [List.set, ih n a h]

theorem get?_map_my {α β : Type} (f : α → β) : ∀ (l : List α) (n : Nat),
    (l.map f).get? n = (l.get? n).map f := by
  intro l
  induction l with
  | nil => intro n; cases n <;> rfl
  | cons x xs ih =>
    intro n
    cases n with
    | zero => rfl
    | succ n => simpa [List.get?] using ih n

theorem applyColumnToReads_beginPos (ri : ReadInsT) (p : Int) (w : Nat) :
    ∀ (results : List Nat) (st : List TAlignedRead),
      (applyColumnToReads ri results p w st).map (fun el => el.beginPos) =
        st.map (fun el => el.beginPos) := by
  intro results
  induction results with
  | nil => intro st; rfl
  | cons aid rest ih =>
    intro st
    cases hget : st.get? aid with
    | none =>
      have h1 : applyColumnToReads ri (aid :: rest) p w st =
          applyColumnToReads ri rest p w st := by
        simp only [applyColumnToReads, List.foldl_cons, hget]
      rw [h1, ih]
    | some el =>
      have h1 : applyColumnToReads ri (aid :: rest) p w st =
          applyColumnToReads ri rest p w (st.set aid (updateOneRead ri p w el)) := by
        simp only [applyColumnToReads, List.foldl_cons, hget]
      have h2 : (st.map (fun el2 => el2.beginPos)).get? aid = some el.beginPos := by
        rw [get?_map_my, hget]
        rfl
      rw [h1, ih, List.map_set, updateOneRead_beginPos, set_get?_self _ _ _ h2]

theorem shiftFromLowerBound_eq_map (key : Int) (w : Nat) :
    ∀ store : List TAlignedRead, sortedByBegin store →
      shiftFromLowerBound store key w =
        store.map (fun el =>
          if key ≤ el.beginPos
          then { el with beginPos := el.beginPos + (w : Int), endPos := el.endPos + (w : Int) }
          else el) := by
  intro store
  induction store with
  | nil => intro _; rfl
  | cons x xs ih =>
    intro hs
    rw [sortedByBegin, List.pairwise_cons] at hs
    obtain ⟨hx, hxs⟩ := hs
    by_cases h : key ≤ x.beginPos
    · simp only [shiftFromLowerBound, if_pos h]
      refine List.map_congr_left ?_
      intro el hel
      rcases List.mem_cons.mp hel with rfl | hel
      · rw [if_pos h]
      · rw [if_pos (le_trans h (hx el hel))]
    · simp only [shiftFromLowerBound, if_neg h, List.map_cons]
      rw [ih hxs]

theorem sortedByBegin_of_map_eq (st1 st2 : List TAlignedRead)
    (h : st1.map (fun el => el.beginPos) = st2.map (fun el => el.beginPos))
    (hs : sortedByBegin st1) : sortedByBegin st2 := by
  rw [sortedByBegin, ← List.pairwise_map (f := fun el : TAlignedRead => el.beginPos)
    (R := fun a b : Int => a ≤ b)]
  rw [← h]
  rw [List.pairwise_map]
  exact hs

theorem shiftFromLowerBound_sorted (key : Int) (w : Nat) (store : List TAlignedRead)
    (hs : sortedByBegin store) : sortedByBegin (shiftFromLowerBound store key w) := by
  rw [shiftFromLowerBound_eq_map key w store hs]
  refine hs.map _ ?_
  intro a b hab
  by_cases ha : key ≤ a.beginPos
  · have hb : key ≤ b.beginPos := le_trans ha hab
    simp only [if_pos ha, if_pos hb]
    omega
  · by_cases hb : key ≤ b.beginPos
    · simp only [if_neg ha, if_pos hb]
      omega
    · simp only [if_neg ha, if_neg hb]
      exact hab

theorem columnStep_sorted (ri : ReadInsT) (ivs : List (Int × Int × Nat)) (cg : GapSeq)
    (store : List TAlignedRead) (pw : Int × Nat) (hs : sortedByBegin store) :
    sortedByBegin (columnStep ri ivs cg store pw) := by
  refine shiftFromLowerBound_sorted _ _ _ ?_
  exact sortedByBegin_of_map_eq store _
    (applyColumnToReads_beginPos ri pw.1 pw.2 (findIntervals ivs pw.1) store).symm hs

/-- C5: on a begin-sorted aligned-read store, the shifting step of a
column moves begin and end forward by the column width for exactly the
reads whose begin position is at or beyond the lower-bound key, and
leaves every other read unchanged; processing a column preserves the
begin ordering (so this holds at every processed column), and with the
gapless contig gaps of the read-projection pass the view coordinate of
a column position is the position itself. -/
theorem shift_exactly_lower_bounded (ri : ReadInsT) (ivs : List (Int × Int × Nat))
    (cg : GapSeq) (key : Int) (pw : Int × Nat) (store : List TAlignedRead)
    (ref : List Char) (s : Nat) (hs : sortedByBegin store) :
    shiftFromLowerBound store key pw.2 =
      store.map (fun el =>
        if key ≤ el.beginPos
        then { el with beginPos := el.beginPos + (pw.2 : Int),
                       endPos := el.endPos + (pw.2 : Int) }
        else el)
    ∧ sortedByBegin (columnStep ri ivs cg store pw)
    ∧ toViewPosition (ref.map some) s = s := by
  exact ⟨shiftFromLowerBound_eq_map key pw.2 store hs,
    columnStep_sorted ri ivs cg store pw hs,
    toViewPosition_gapless ref s⟩

/-- C5 witness: a concrete sorted two-read store shifted at key 3 by
width 2 — the read beginning at 4 moves to 6 and the read beginning at
1 stays. -/
theorem shift_exactly_lower_bounded_witness :
    shiftFromLowerBound
        [{ id := 0, readId := 0, beginPos := 1, endPos := 4, gaps := [] },
         { id := 1, readId := 1, beginPos := 4, endPos := 8, gaps := [] }] 3 2 =
      [{ id := 0, readId := 0, beginPos := 1, endPos := 4, gaps := [] },
       { id := 1, readId := 1, beginPos := 4, endPos := 8, gaps := [] }].map (fun el =>
        if (3 : Int) ≤ el.beginPos
        then { el with beginPos := el.beginPos + ((2 : Nat) : Int),
                       endPos := el.endPos + ((2 : Nat) : Int) }
        else el)
    ∧ sortedByBegin (columnStep [] []
        [some 'A']
        [{ id := 0, readId := 0, beginPos := 1, endPos := 4, gaps := [] },
         { id := 1, readId := 1, beginPos := 4, endPos := 8, gaps := [] }] (3, 2))
    ∧ toViewPosition (['A', 'C'].map some) 2 = 2 := by
  refine shift_exactly_lower_bounded [] [] [some 'A'] 3 (3, 2) _ ['A', 'C'] 2 ?_
  rw [sortedByBegin]
  decide

/-- C6 (amended): ingestion does not shift a read's begin position for a
leading insertion — the begin correction is the leading-gap count
returned by `cigarToGapAnchorRead`, which is `0` for a CIGAR starting
with an insertion — and instead records the insertion in the shared
reference-gap table at the read's begin position, where it becomes a
shared column of width at least the insertion's length; the projection's
boundary check merely skips inserting that column into a read whose
view offset for it is zero (a read beginning exactly at the column). -/
theorem leading_insertion_recorded (regionBegin : Int) (acc : IngestOut)
    (rec : BamAlignmentRecord) (k : Nat) (rest : List CigarElem)
    (ri : ReadInsT) (w : Nat) (el : TAlignedRead)
    (hmap : rec.unmapped = false) (hcigar : rec.cigar = ⟨.I, k⟩ :: rest) :
    (cigarToGapAnchorRead rec.cigar rec.seq).2 = 0
    ∧ (ingestRecord regionBegin acc rec).alignedReads.map (fun e => e.beginPos) =
        acc.alignedReads.map (fun e => e.beginPos) ++ [rec.beginPos - regionBegin]
    ∧ k ≤ lookupD (ingestRecord regionBegin acc rec).refGaps (rec.beginPos - regionBegin)
    ∧ updateOneRead ri el.beginPos w el = el := by
  have hlead : (cigarToGapAnchorRead rec.cigar rec.seq).2 = 0 := by
    rw [hcigar]
    rfl
  have hev : eventsOfRecord regionBegin rec =
      (rec.beginPos - regionBegin, k) ::
        cigarEvents rest (rec.beginPos - regionBegin) := by
    rw [eventsOfRecord, if_neg (by simp [hmap]), hlead, hcigar]
    simp [cigarEvents]
  refine ⟨hlead, ?_, ?_, ?_⟩
  · simp only [ingestRecord, hmap, Bool.false_eq_true, if_false, List.map_append,
      List.map_cons, List.map_nil, hlead]
    simp
  · rw [ingestRecord_refGaps, lookupD, lookupO_fold_events, hev]
    have htouch : touchedAt ((rec.beginPos - regionBegin, k) ::
        cigarEvents rest (rec.beginPos - regionBegin)) (rec.beginPos - regionBegin) = true := by
      simp [touchedAt, List.any_cons]
    rw [if_pos htouch]
    have hmax : maxAt ((rec.beginPos - regionBegin, k) ::
        cigarEvents rest (rec.beginPos - regionBegin)) (rec.beginPos - regionBegin) =
        max k (maxAt (cigarEvents rest (rec.beginPos - regionBegin))
          (rec.beginPos - regionBegin)) := by
      simp [maxAt]
    rw [Option.getD_some, hmax]
    omega
  · simp [updateOneRead]

/-- C6 amended-claim witness: at the leading-insertion input, read x's
CIGAR I1 M2 yields zero leading gaps, ingestion into the empty store
appends the aligned read at begin 2 (unshifted), the reference-gap
table at 2 holds at least the insertion length 1, and the projection
update of a read beginning exactly at the column position leaves it
unchanged. -/
theorem leading_insertion_recorded_witness :
    (cigarToGapAnchorRead recX.cigar recX.seq).2 = 0
    ∧ (ingestRecord 0 emptyIngest recX).alignedReads.map (fun e => e.beginPos) =
        emptyIngest.alignedReads.map (fun e => e.beginPos) ++ [recX.beginPos - 0]
    ∧ 1 ≤ lookupD (ingestRecord 0 emptyIngest recX).refGaps (recX.beginPos - 0)
    ∧ updateOneRead [] (2 : Int) 1
        { id := 5, readId := 5, beginPos := 2, endPos := 4, gaps := [] } =
        { id := 5, readId := 5, beginPos := 2, endPos := 4, gaps := [] } :=
  leading_insertion_recorded 0 emptyIngest recX 1 [⟨.M, 2⟩] [] 1
    { id := 5, readId := 5, beginPos := 2, endPos := 4, gaps := [] } rfl rfl

/-! Helper lemmas for the window loader. -/

theorem extendRegionRecord_rID (reg : GenomicRegion) (rec : BamAlignmentRecord) :
    (extendRegionRecord reg rec).rID = reg.rID := by
  rw [extendRegionRecord]
  split <;> rfl

theorem extendRegionRecord_other (reg : GenomicRegion) (rec : BamAlignmentRecord)
    (h : rec.rID ≠ reg.rID) : extendRegionRecord reg rec = reg := by
  rw [extendRegionRecord, if_pos h]

theorem extendRegionRecord_mono (reg : GenomicRegion) (rec : BamAlignmentRecord) :
    (extendRegionRecord reg rec).beginPos ≤ reg.beginPos
    ∧ reg.endPos ≤ (extendRegionRecord reg rec).endPos := by
  rw [extendRegionRecord]
  split
  · exact ⟨le_refl _, le_refl _⟩
  · exact ⟨min_le_left _ _, le_max_left _ _⟩

theorem extendRegionRecord_covers (reg : GenomicRegion) (rec : BamAlignmentRecord)
    (h : rec.rID = reg.rID) :
    (extendRegionRecord reg rec).beginPos ≤ rec.beginPos
    ∧ rec.beginPos + (getAlignmentLengthInRef rec.cigar : Int) ≤
        (extendRegionRecord reg rec).endPos := by
  rw [extendRegionRecord, if_neg (by omega : ¬ rec.rID ≠ reg.rID)]
  exact ⟨min_le_right _ _, le_max_right _ _⟩

theorem loadLoop_rID : ∀ (stream : List BamAlignmentRecord) (region : GenomicRegion),
    (loadLoop region stream).1.rID = region.rID := by
  intro stream
  induction stream with
  | nil => intro region; rfl
  | cons rec rest ih =>
    intro region
    rw [loadLoop]
    split
    · rfl
    · split
      · rfl
      · rw [ih (extendRegionRecord region rec), extendRegionRecord_rID]

theorem loadLoop_mono : ∀ (stream : List BamAlignmentRecord) (region : GenomicRegion),
    (loadLoop region stream).1.beginPos ≤ region.beginPos
    ∧ region.endPos ≤ (loadLoop region stream).1.endPos := by
  intro stream
  induction stream with
  | nil => intro region; exact ⟨le_refl _, le_refl _⟩
  | cons rec rest ih =>
    intro region
    rw [loadLoop]
    split
    · exact ⟨le_refl _, le_refl _⟩
    · split
      · exact ⟨le_refl _, le_refl _⟩
      · obtain ⟨h1, h2⟩ := ih (extendRegionRecord region rec)
        obtain ⟨h3, h4⟩ := extendRegionRecord_mono region rec
        exact ⟨le_trans h1 h3, le_trans h4 h2⟩

theorem loadLoop_sublist : ∀ (stream : List BamAlignmentRecord) (region : GenomicRegion),
    (loadLoop region stream).2.Sublist stream := by
  intro stream
  induction stream with
  | nil => intro region; simp [loadLoop]
  | cons rec rest ih =>
    intro region
    rw [loadLoop]
    split
    · exact List.nil_sublist _
    · split
      · exact List.nil_sublist _
      · exact (ih (extendRegionRecord region rec)).cons₂ rec

theorem loadLoop_records : ∀ (stream : List BamAlignmentRecord) (region : GenomicRegion),
    lexSorted stream →
    (∀ rec ∈ stream, rec.rID = -1 ∨ region.rID ≤ rec.rID) →
    (∀ rec ∈ (loadLoop region stream).2,
      rec.rID = region.rID
      ∧ (loadLoop region stream).1.beginPos ≤ rec.beginPos
      ∧ rec.beginPos + (getAlignmentLengthInRef rec.cigar : Int) ≤
          (loadLoop region stream).1.endPos)
    ∧ (loadLoop region stream).2.Pairwise (fun a b => a.beginPos ≤ b.beginPos) := by
  intro stream
  induction stream with
  | nil =>
    intro region _ _
    exact ⟨by intro rec h; simp [loadLoop] at h, by simp [loadLoop]⟩
  | cons rec rest ih =>
    intro region hsort hjump
    rw [lexSorted, List.pairwise_cons] at hsort
    obtain ⟨hhd, htl⟩ := hsort
    rw [loadLoop]
    split
    · exact ⟨by intro r h; simp at h, by simp⟩
    · split
      · exact ⟨by intro r h; simp at h, by simp⟩
      · rename_i hvalid hbreak
        have hrid : rec.rID = region.rID := by
          rcases hjump rec (List.mem_cons_self _ _) with h | h
          · exact absurd h hvalid
          · omega
        have ihm := ih (extendRegionRecord region rec) htl ?_
        · obtain ⟨ihmem, ihpair⟩ := ihm
          have hcov := extendRegionRecord_covers region rec hrid
          have hmono := loadLoop_mono rest (extendRegionRecord region rec)
          constructor
          · intro r hr
            rcases List.mem_cons.mp hr with rfl | hr
            · exact ⟨hrid, le_trans hmono.1 hcov.1, le_trans hcov.2 hmono.2⟩
            · obtain ⟨h1, h2, h3⟩ := ihmem r hr
              exact ⟨h1.trans (extendRegionRecord_rID region rec), h2, h3⟩
          · refine List.Pairwise.cons ?_ ihpair
            intro r hr
            have hrmem : r ∈ rest := (loadLoop_sublist rest _).subset hr
            have hrid2 : r.rID = region.rID :=
              ((ihmem r hr).1).trans (extendRegionRecord_rID region rec)
            rcases hhd r hrmem with h | h
            · omega
            · exact h.2
        · intro r hr
          rcases hjump r (List.mem_cons_of_mem _ hr) with h | h
          · exact Or.inl h
          · exact Or.inr (by rw [extendRegionRecord_rID]; exact h)

/-- C7 (amended): on a coordinate-sorted stream positioned at or after
the requested contig — every non-sentinel record has a contig id at or
beyond the region's — every record kept by the loader lies on the
region's contig, the kept list is ordered by start position, a record on
a different contig never extends the region, and every kept record whose
CIGAR consumes at least one reference base overlaps the final extended
window. -/
theorem window_loader_contract (reg0 : GenomicRegion) (stream : List BamAlignmentRecord)
    (hsort : lexSorted stream)
    (hjump : ∀ rec ∈ stream, rec.rID = -1 ∨ reg0.rID ≤ rec.rID) :
    (∀ rec ∈ (loadLoop reg0 stream).2,
        rec.rID = reg0.rID
        ∧ (0 < getAlignmentLengthInRef rec.cigar →
            overlapsRegion rec (loadLoop reg0 stream).1))
    ∧ (loadLoop reg0 stream).2.Pairwise (fun a b => a.beginPos ≤ b.beginPos)
    ∧ ∀ (reg : GenomicRegion) (rec : BamAlignmentRecord),
        rec.rID ≠ reg.rID → extendRegionRecord reg rec = reg := by
  obtain ⟨hmem, hpair⟩ := loadLoop_records stream reg0 hsort hjump
  refine ⟨?_, hpair, extendRegionRecord_other⟩
  intro rec hr
  obtain ⟨h1, h2, h3⟩ := hmem rec hr
  refine ⟨h1, ?_⟩
  intro hlen
  rw [overlapsRegion]
  have hlen2 : (0 : Int) < (getAlignmentLengthInRef rec.cigar : Int) := by
    exact_mod_cast hlen
  omega

/-- C7 amended-claim witness: the loader keeps the record at position 12
with CIGAR M3, which lies on the region's contig and overlaps the final
window [10, 20). -/
theorem window_loader_contract_witness :
    recM3.rID = regW.rID ∧ overlapsRegion recM3 (loadLoop regW [recM3]).1 := by
  have h := window_loader_contract regW [recM3]
    (by rw [lexSorted]; simp)
    (by intro rec hrec; rw [List.mem_singleton] at hrec; subst hrec; right; decide)
  have h2 := h.1 recM3 (by decide)
  exact ⟨h2.1, h2.2 (by decide)⟩
